import Mathlib

/-!
Verification of the Splitgraph core against its natural-language specification.

Shallow embedding of the Python sources:
* `splitgraph/engine/__init__.py` — the `Engine` storage-adapter base class
  (result shapes, batch execution, catalog checks, change-key selection);
* `splitgraph/hooks/data_source/fdw.py` — the Mongo data source schema hook;
* `splitgraph/ingestion/singer/_utils.py` — changeset capture for Singer taps;
* `splitgraph/ingestion/csv/fdw.py` — CSV foreign-schema introspection with
  per-table error isolation;
* the build-script (splitfile) preprocessor, executor, commit graph and the
  table-import step, modelled from the specification where the Python module
  is not part of the source tree under verification.
-/

namespace Splitgraph

/-! ### Engine result shapes and batch execution (engine/__init__.py) -/

/-- Shape that the result of a query will be coerced to (`ResultShape` enum). -/
inductive ResultShape where
  | NONE
  | ONE_ONE
  | ONE_MANY
  | MANY_ONE
  | MANY_MANY
deriving DecidableEq, Repr

/-- Abstract backing store: `run_sql` maps a statement, an argument list and a
result shape to a new store state plus an opaque result.  This models the
abstract method `Engine.run_sql` whose concrete behaviour is supplied by a
subclass; the base class only sequences calls to it. -/
structure SqlEngine (σ ρ : Type) where
  run_sql : String → List String → ResultShape → σ → σ × ρ

/-- `Engine.run_sql_batch`: run a parameterized SQL statement against multiple
sets of arguments, as the base class implements it — a loop invoking
`run_sql` with `ResultShape.NONE` for each argument set in order, discarding
results. -/
def run_sql_batch (E : SqlEngine σ ρ) (statement : String)
    (arguments : List (List String)) (s : σ) : σ :=
  arguments.foldl (fun st args => (E.run_sql statement args ResultShape.NONE st).1) s

/-- The specification-side reading of batch execution: invoke `run_sql` once
per argument set, in sequence order, each with no-result shape. -/
def run_sql_each (E : SqlEngine σ ρ) (statement : String) :
    List (List String) → σ → σ
  | [], s => s
  | args :: rest, s =>
      run_sql_each E statement rest (E.run_sql statement args ResultShape.NONE s).1

/-! ### Catalog-backed checks (engine/__init__.py) -/

/-- Python string slice `s[:n]`: the first `n` characters of `s`. -/
def pySlice (s : String) (n : Nat) : String := ⟨s.data.take n⟩

/-- `Engine.table_exists`: the engine compares the schema name and the first 63
characters of the table name (`table_name[:63]` in the source) against the
`information_schema.tables` catalog, here modelled as a list of
(table_schema, table_name) rows. -/
def table_exists (catalog : List (String × String)) (schema table_name : String) : Bool :=
  catalog.any fun p => decide (p.1 = schema) && decide (p.2 = pySlice table_name 63)

/-- Catalog facets of an engine used by `Engine.get_change_key`:
`get_primary_keys` (list of (column name, column type) of the primary keys)
and `get_column_names_types` (list of (column, type) of all columns). -/
structure EngineCatalog where
  primary_keys : String → String → List (String × String)
  column_names_types : String → String → List (String × String)

/-- Python `a or b` on lists: `b` when `a` is empty (falsy), `a` otherwise. -/
def pyListOr (a b : List α) : List α :=
  if a.isEmpty then b else a

/-- `Engine.get_change_key`: the key used to identify a row in a change —
`self.get_primary_keys(schema, table) or self.get_column_names_types(schema, table)`. -/
def get_change_key (e : EngineCatalog) (schema table : String) : List (String × String) :=
  pyListOr (e.primary_keys schema table) (e.column_names_types schema table)

/-! ### Mongo data source schema hook (hooks/data_source/fdw.py) -/

/-- `splitgraph.core.types.TableColumn`: (ordinal, name, pg_type, is_pk). -/
structure TableColumn where
  ordinal : Int
  name : String
  pg_type : String
  is_pk : Bool
deriving DecidableEq, Repr

/-- `MongoDataSource.get_table_schema`: return the schema unchanged if some
column is already named `_id`; otherwise append an `_id` column of type `NAME`
with ordinal `table_schema[-1].ordinal + 1`.  Indexing `table_schema[-1]` on an
empty list raises in Python, hence the `Option` result. -/
def mongo_get_table_schema (table_schema : List TableColumn) : Option (List TableColumn) :=
  if table_schema.any fun c => c.name = "_id" then
    some table_schema
  else
    match table_schema.getLast? with
    | some c => some (table_schema ++ [⟨c.ordinal + 1, "_id", "NAME", false⟩])
    | none => none

/-! ### Singer changeset capture (ingestion/singer/_utils.py) -/

/-- Modelled from the spec: `get_change_key` of the postgres engine module (not
under `src/`), applied to a table schema spec — the change key is the
primary-key columns, or all columns if the table has none, mirroring
`Engine.get_change_key`. -/
def get_change_key_schema (schema_spec : List TableColumn) : List (String × String) :=
  pyListOr ((schema_spec.filter fun c => c.is_pk).map fun c => (c.name, c.pg_type))
    (schema_spec.map fun c => (c.name, c.pg_type))

/-- Python dict insertion as performed by a dict comprehension: a later binding
for an existing key overwrites the stored value in place; a fresh key is
appended. -/
def dictInsert [DecidableEq κ] (m : List (κ × α)) (k : κ) (v : α) : List (κ × α) :=
  if m.any fun p => p.1 = k then
    m.map fun p => if p.1 = k then (k, v) else p
  else
    m ++ [(k, v)]

/-- A changeset as built by `_make_changeset`: change-key tuple →
(upserted flag, old row, new row). -/
abbrev Changeset (V : Type) :=
  List (List V × (Bool × List (String × V) × List (String × V)))

/-- `_make_changeset`: the staging-table rows are projected onto the change-key
columns (`SELECT n.c1, ..., (upsert condition) AS upserted FROM schema.table n`)
and collected into `{tuple(row[:-1]): (row[-1], {}, {})}` — the old-row and
new-row dicts are always left empty; no prior row value is recorded.  A row is
modelled as a valuation of column names. -/
def make_changeset [DecidableEq V] (rows : List (String → V))
    (schema_spec : List TableColumn) (upsert_condition : (String → V) → Bool) :
    Changeset V :=
  let change_key := (get_change_key_schema schema_spec).map fun p => p.1
  rows.foldl
    (fun m row => dictInsert m (change_key.map row) (upsert_condition row, [], [])) []

/-! ### CSV foreign-schema introspection (ingestion/csv/fdw.py) -/

/-- A Multicorn `TableDefinition` produced by CSV introspection. -/
structure TableDefinition where
  table_name : String
  columns : List (String × String)
  options : List (String × String)
deriving DecidableEq, Repr

/-- `report_errors`: context manager that ignores exceptions raised while
introspecting one table and serializes them to a notice instead of
propagating; the wrapped computation therefore yields no table definition on
failure. -/
def report_errors (act : Except String α) : Option α := act.toOption

/-- `CSVForeignDataWrapper._introspect_s3` (likewise `_introspect_url`): run
the per-object introspection under `report_errors`, so a failing table yields
`none` instead of an exception. -/
def introspect_s3_result (introspection : String → Except String TableDefinition)
    (object_id : String) : Option TableDefinition :=
  report_errors (introspection object_id)

/-- The table-definition list returned by `CSVForeignDataWrapper.import_schema`
over a list of objects: introspect each object, then keep the truthy results
(`[r for r in result if r]`). -/
def schema_import_results (introspection : String → Except String TableDefinition)
    (objects : List String) : List TableDefinition :=
  ((objects.map fun o => introspect_s3_result introspection o).filterMap id)

/-! ### Splitfile preprocessing (splitfile module, modelled from the spec) -/

/-- Parameter lookup: the binding of a placeholder name, if any. -/
def lookupParam (params : List (String × String)) (n : String) : Option String :=
  (params.find? fun p => p.1 = n).map fun p => p.2

/-- Scanner state for the placeholder-substitution pass: plain text, just after
a backslash, just after an unescaped dollar, or inside a placeholder body
collecting the name. -/
inductive ScanMode where
  | normal
  | escape
  | dollar
  | name (acc : List Char)
deriving DecidableEq, Repr

/-- Characters still owed to the output when the input ends mid-state. -/
def flushMode : ScanMode → List Char
  | .normal => []
  | .escape => ['\\']
  | .dollar => ['$']
  | .name acc => '$' :: '{' :: acc

/-- Modelled from the spec: the placeholder-substitution scan of `preprocess`
in the splitfile parsing module (not under `src/`).  Substitutes each unescaped
placeholder with its bound value; a backslash-escaped placeholder is left
unsubstituted with the escaping backslash removed; every unescaped placeholder
without a binding is collected (second component) as referenced-but-unbound. -/
def ppScan (f : String → Option String) : List Char → ScanMode → List Char × List String
  | [], mode => (flushMode mode, [])
  | c :: rest, ScanMode.normal =>
      if c = '\\' then ppScan f rest ScanMode.escape
      else if c = '$' then ppScan f rest ScanMode.dollar
      else
        let r := ppScan f rest ScanMode.normal
        (c :: r.1, r.2)
  | c :: rest, ScanMode.escape =>
      if c = '$' then
        let r := ppScan f rest ScanMode.normal
        ('$' :: r.1, r.2)
      else if c = '\\' then
        let r := ppScan f rest ScanMode.escape
        ('\\' :: r.1, r.2)
      else
        let r := ppScan f rest ScanMode.normal
        ('\\' :: c :: r.1, r.2)
  | c :: rest, ScanMode.dollar =>
      if c = '{' then ppScan f rest (ScanMode.name [])
      else if c = '\\' then
        let r := ppScan f rest ScanMode.escape
        ('$' :: r.1, r.2)
      else if c = '$' then
        let r := ppScan f rest ScanMode.dollar
        ('$' :: r.1, r.2)
      else
        let r := ppScan f rest ScanMode.normal
        ('$' :: c :: r.1, r.2)
  | c :: rest, ScanMode.name acc =>
      if c = '}' then
        match f (String.mk acc) with
        | some v =>
            let r := ppScan f rest ScanMode.normal
            (v.data ++ r.1, r.2)
        | none =>
            let r := ppScan f rest ScanMode.normal
            ('$' :: '{' :: (acc ++ '}' :: r.1), String.mk acc :: r.2)
      else ppScan f rest (ScanMode.name (acc ++ [c]))

/-- The names of the unescaped placeholders a script references, in scan order
(bound or not).  Same scanner skeleton as `ppScan`, independent of the
parameter bindings; escaped placeholders never reach the collecting state. -/
def placeholderRefs : List Char → ScanMode → List String
  | [], _ => []
  | c :: rest, ScanMode.normal =>
      if c = '\\' then placeholderRefs rest ScanMode.escape
      else if c = '$' then placeholderRefs rest ScanMode.dollar
      else placeholderRefs rest ScanMode.normal
  | c :: rest, ScanMode.escape =>
      if c = '$' then placeholderRefs rest ScanMode.normal
      else if c = '\\' then placeholderRefs rest ScanMode.escape
      else placeholderRefs rest ScanMode.normal
  | c :: rest, ScanMode.dollar =>
      if c = '{' then placeholderRefs rest (ScanMode.name [])
      else if c = '\\' then placeholderRefs rest ScanMode.escape
      else if c = '$' then placeholderRefs rest ScanMode.dollar
      else placeholderRefs rest ScanMode.normal
  | c :: rest, ScanMode.name acc =>
      if c = '}' then String.mk acc :: placeholderRefs rest ScanMode.normal
      else placeholderRefs rest (ScanMode.name (acc ++ [c]))

/-- Modelled from the spec: `preprocess` of the splitfile parsing module (not
under `src/`) — run the substitution scan over the script text; if any
referenced-but-unbound parameter names remain, fail listing all of them,
otherwise return the substituted text. -/
def preprocess (text : String) (params : List (String × String)) :
    Except (List String) String :=
  if (ppScan (lookupParam params) text.data ScanMode.normal).2 = [] then
    Except.ok (String.mk (ppScan (lookupParam params) text.data ScanMode.normal).1)
  else Except.error (ppScan (lookupParam params) text.data ScanMode.normal).2

/-- Sample introspection map used to witness the CSV error-isolation theorem:
one object fails with an error, the other yields a definition. -/
def sampleIntrospection : String → Except String TableDefinition := fun o =>
  if o = "bad.csv" then Except.error "boom"
  else Except.ok ⟨o, [("col_1", "text")], []⟩

/-- Sample schema spec used to witness the changeset theorem: an integer
primary key and a text payload column. -/
def sampleSpec : List TableColumn :=
  [⟨1, "id", "integer", true⟩, ⟨2, "v", "text", false⟩]

/-- Sample staging-table row used to witness the changeset theorem. -/
def sampleRow : String → Nat := fun c => if c = "id" then 1 else 7

end Splitgraph

namespace Splitgraph.Build

/-! ### Build-engine execution with memoized steps (splitfile execution module,
modelled from the spec) -/

/-- Modelled from the spec: image hashes are 64-hex content digests — a
deterministic function of the parent hash and the executed command (its
post-substitution text plus the resolved hashes of the source images it
reads).  Content addressing is modelled by an injective constructor; `root` is
the synthetic all-zero empty image present in every repository. -/
inductive ImgHash where
  | root
  | derived (parent : ImgHash) (commandText : String) (sources : List String)
deriving DecidableEq, Repr

/-- A build-script step: its post-substitution command text and the resolved
hashes of the source images it reads. -/
structure Command where
  text : String
  sources : List String
deriving DecidableEq, Repr

/-- An image of the output repository as the build engine records it. -/
structure Image where
  image_hash : ImgHash
  parent_id : ImgHash
  command : Command
deriving DecidableEq, Repr

/-- The output repository during a run: its set of images and current HEAD. -/
structure BuildState where
  images : List Image
  head : ImgHash
deriving DecidableEq, Repr

/-- The cache key of a step: the image hash derived from the current output
HEAD and the command (text and resolved source hashes). -/
def stepHash (h : ImgHash) (c : Command) : ImgHash :=
  ImgHash.derived h c.text c.sources

/-- Modelled from the spec: one image-producing step of `execute_commands` in
the splitfile execution module (not under `src/`).  If an image with the
step's exact cache key already exists, the step is skipped and that image
reused — no new image is created; otherwise the step materializes a new image
as a child of the current HEAD.  Either way HEAD advances to the step's
image. -/
def executeStep (st : BuildState) (c : Command) : BuildState :=
  if st.images.any fun im => im.image_hash = stepHash st.head c then
    { st with head := stepHash st.head c }
  else
    { images := st.images ++ [⟨stepHash st.head c, st.head, c⟩],
      head := stepHash st.head c }

/-- Modelled from the spec: `execute_commands` folds the parsed command list
into a sequence of image-producing steps against the output repository. -/
def execute_commands (commands : List Command) (st : BuildState) : BuildState :=
  commands.foldl executeStep st

/-- The output HEAD after a run, a pure function of the initial HEAD and the
command list (image hashes are content digests, independent of cache hits). -/
def headAfter (commands : List Command) (h : ImgHash) : ImgHash :=
  commands.foldl stepHash h

/-- The image hashes a run starting at the given HEAD steps through. -/
def chainHashes : List Command → ImgHash → List ImgHash
  | [], _ => []
  | c :: rest, h => stepHash h c :: chainHashes rest (stepHash h c)

end Splitgraph.Build

namespace Splitgraph.BuildImport

/-! ### Import steps of the build engine (modelled from the spec) -/

/-- Modelled from the spec: object ids are content hashes of the row-change
payload.  Objects already existing in a source repository were stored at
commits; an object captured from a transform query is identified by the
query that produced it. -/
inductive ObjId where
  | stored (id : String)
  | transformed (query : String)
deriving DecidableEq, Repr

/-- A table entry: the ordered list of objects whose application reconstructs
the table. -/
structure TableEntry where
  objects : List ObjId
deriving DecidableEq, Repr

/-- Modelled from the spec: the import step of the build engine (not under
`src/`).  Importing a table verbatim (no custom transform query) reuses the
source table's existing objects directly in the new table entry and creates
no object; importing with a custom query executes it and captures one
brand-new object holding the result.  Returns the new table entry and the
list of newly created objects. -/
def applyImport (entry : TableEntry) (query : Option String) :
    TableEntry × List ObjId :=
  match query with
  | none => (entry, [])
  | some q => (⟨[ObjId.transformed q]⟩, [ObjId.transformed q])

end Splitgraph.BuildImport

namespace Splitgraph.Commit

/-! ### Commit graph and diff application (modelled from the spec) -/

/-- A row of the scenario's table: an integer key and a text value. -/
abbrev Row := Nat × String

/-- A recorded row-level change, keyed by the table's change key. -/
inductive Change where
  | upsertRow (r : Row)
  | deleteKey (k : Nat)
deriving DecidableEq, Repr

/-- Modelled from the spec: an image hash is a content digest of the parent
and the committed changes; `root` is the synthetic all-zero empty image. -/
inductive CommitHash where
  | root
  | commit (parent : CommitHash) (changes : List Change)
deriving DecidableEq, Repr

/-- An image: content hash, parent back-reference, and the tracked table's
entry (ordered object list; each object is a changeset). -/
structure CImage where
  image_hash : CommitHash
  parent_id : Option CommitHash
  objects : List (List Change)
deriving DecidableEq, Repr

/-- A repository: its images and current checkout pointer (HEAD). -/
structure Repo where
  images : List CImage
  head : CommitHash
deriving DecidableEq, Repr

/-- A fresh repository holding only the synthetic empty root image. -/
def emptyRepo : Repo :=
  { images := [⟨CommitHash.root, none, []⟩], head := CommitHash.root }

/-- Modelled from the spec: replaying one change — inserts/updates are per-key
upserts, deletes are per-key removals (whole-row granularity). -/
def applyChange (tbl : List Row) : Change → List Row
  | .upsertRow r =>
      if tbl.any fun p => p.1 = r.1 then tbl.map fun p => if p.1 = r.1 then r else p
      else tbl ++ [r]
  | .deleteKey k => tbl.filter fun p => p.1 ≠ k

/-- Replaying one object (changeset) onto a materialized table. -/
def applyObject (tbl : List Row) (o : List Change) : List Row :=
  o.foldl applyChange tbl

/-- Applying a table entry's objects in commit order reconstructs the table. -/
def materialize (objects : List (List Change)) : List Row :=
  objects.foldl applyObject []

/-- Image lookup by hash. -/
def lookupImage (r : Repo) (h : CommitHash) : Option CImage :=
  r.images.find? fun im => im.image_hash = h

/-- Modelled from the spec: `commit` freezes the pending changes of the
tracked table into a new object, builds a new image whose table entry is the
parent's entry with the new object appended, computes the image hash,
persists the image and advances HEAD. -/
def commit (r : Repo) (pending : List Change) : Repo :=
  let parentObjects :=
    match lookupImage r r.head with
    | some im => im.objects
    | none => []
  { images := r.images ++
      [⟨CommitHash.commit r.head pending, some r.head, parentObjects ++ [pending]⟩],
    head := CommitHash.commit r.head pending }

/-- Modelled from the spec: eager `checkout` of the tracked table of an image
— apply its objects in order onto an empty table. -/
def checkoutTable (r : Repo) (h : CommitHash) : List Row :=
  match lookupImage r h with
  | some im => materialize im.objects
  | none => []

/-- Parent walk with fuel (the image count bounds the chain length). -/
def logFrom (r : Repo) : Nat → CommitHash → List CommitHash
  | 0, _ => []
  | fuel + 1, h =>
      h :: (match lookupImage r h with
            | some im =>
                match im.parent_id with
                | some p => logFrom r fuel p
                | none => []
            | none => [])

/-- Modelled from the spec: `log` walks `parent_id` back to the root,
returning the ordered ancestor chain from HEAD. -/
def get_log (r : Repo) : List CommitHash := logFrom r r.images.length r.head

/-- Hash of the scenario's first commit (insert of `(1, "pineapple")`). -/
def scenarioHash1 : CommitHash :=
  CommitHash.commit CommitHash.root [Change.upsertRow (1, "pineapple")]

/-- Hash of the scenario's second commit (insert of `(2, "banana")`). -/
def scenarioHash2 : CommitHash :=
  CommitHash.commit scenarioHash1 [Change.upsertRow (2, "banana")]

/-- The scenario repository: two successive commits on the empty root. -/
def scenarioRepo : Repo :=
  commit (commit emptyRepo [Change.upsertRow (1, "pineapple")])
    [Change.upsertRow (2, "banana")]

end Splitgraph.Commit

namespace Splitgraph

lemma mongo_get_table_schema_of_id (ts : List TableColumn)
    (hany : (ts.any fun c => c.name = "_id") = true) :
    mongo_get_table_schema ts = some ts := by
  unfold mongo_get_table_schema
  rw [if_pos hany]

lemma mongo_get_table_schema_of_no_id (ts : List TableColumn) (c : TableColumn)
    (hany : (ts.any fun c => c.name = "_id") = false) (hc : ts.getLast? = some c) :
    mongo_get_table_schema ts = some (ts ++ [⟨c.ordinal + 1, "_id", "NAME", false⟩]) := by
  unfold mongo_get_table_schema
  rw [if_neg (by rw [hany]; exact Bool.false_ne_true), hc]

end Splitgraph

namespace Splitgraph

/-! ## Theorems -/

/-- C7. Batch execution equivalence: for every statement and finite sequence of
argument sets, `Engine.run_sql_batch` has the same effect on the store as
invoking `Engine.run_sql` once per argument set, in sequence order, each with
no-result shape. -/
theorem run_sql_batch_equiv_sequential (E : SqlEngine σ ρ) (statement : String)
    (arguments : List (List String)) (s : σ) :
    run_sql_batch E statement arguments s = run_sql_each E statement arguments s := by
  induction arguments generalizing s with
  | nil => rfl
  | cons args rest ih =>
      simp only [run_sql_batch, List.foldl_cons, run_sql_each]
      exact ih _

/-- C8. Table-name truncation in existence checks: `Engine.table_exists`
compares only the first 63 characters of the given table name against the
catalog, so any two names agreeing on their first 63 characters are
indistinguishable, and the check succeeds exactly when the catalog holds a row
for the schema whose table name equals the given name's first 63 characters. -/
theorem table_exists_truncates (catalog : List (String × String))
    (schema n₁ n₂ : String) (h : pySlice n₁ 63 = pySlice n₂ 63) :
    table_exists catalog schema n₁ = table_exists catalog schema n₂ ∧
    (table_exists catalog schema n₁ = true ↔ (schema, pySlice n₁ 63) ∈ catalog) := by
  constructor
  · simp only [table_exists, h]
  · simp only [table_exists, List.any_eq_true, Bool.and_eq_true, decide_eq_true_eq]
    constructor
    · rintro ⟨⟨a, b⟩, hmem, h1, h2⟩
      subst h1; subst h2
      exact hmem
    · intro hmem
      exact ⟨(schema, pySlice n₁ 63), hmem, rfl, rfl⟩

/-- Witness for C8: two 64-character names differing only in their final
character are indistinguishable to `table_exists`, and the check reduces to
catalog membership of the common 63-character truncation. -/
theorem table_exists_truncates_witness :
    table_exists
        [("public", "abcdefghijabcdefghijabcdefghijabcdefghijabcdefghijabcdefghijabc")]
        "public" "abcdefghijabcdefghijabcdefghijabcdefghijabcdefghijabcdefghijabcX" =
      table_exists
        [("public", "abcdefghijabcdefghijabcdefghijabcdefghijabcdefghijabcdefghijabc")]
        "public" "abcdefghijabcdefghijabcdefghijabcdefghijabcdefghijabcdefghijabcY" ∧
    (table_exists
        [("public", "abcdefghijabcdefghijabcdefghijabcdefghijabcdefghijabcdefghijabc")]
        "public" "abcdefghijabcdefghijabcdefghijabcdefghijabcdefghijabcdefghijabcX" = true ↔
      ("public",
        pySlice "abcdefghijabcdefghijabcdefghijabcdefghijabcdefghijabcdefghijabcX" 63) ∈
        [("public", "abcdefghijabcdefghijabcdefghijabcdefghijabcdefghijabcdefghijabc")]) :=
  table_exists_truncates
    [("public", "abcdefghijabcdefghijabcdefghijabcdefghijabcdefghijabcdefghijabc")]
    "public" "abcdefghijabcdefghijabcdefghijabcdefghijabcdefghijabcdefghijabcX"
    "abcdefghijabcdefghijabcdefghijabcdefghijabcdefghijabcdefghijabcY" (by decide)

/-- C5. Change key selection: `Engine.get_change_key` returns the table's
primary-key columns when it has at least one, and the full list of
(column name, column type) pairs otherwise. -/
theorem get_change_key_spec (e : EngineCatalog) (schema table : String) :
    (e.primary_keys schema table ≠ [] →
        get_change_key e schema table = e.primary_keys schema table) ∧
    (e.primary_keys schema table = [] →
        get_change_key e schema table = e.column_names_types schema table) := by
  constructor
  · intro h
    simp [get_change_key, pyListOr, List.isEmpty_iff, h]
  · intro h
    simp [get_change_key, pyListOr, List.isEmpty_iff, h]

/-- Witness for C5: a table with a primary key uses it as the change key; a
table without one uses all of its columns. -/
theorem get_change_key_spec_witness :
    ((EngineCatalog.mk (fun _ _ => [("id", "integer")])
        (fun _ _ => [("id", "integer"), ("v", "text")])).primary_keys "s" "t" ≠ [] →
      get_change_key
        (EngineCatalog.mk (fun _ _ => [("id", "integer")])
          (fun _ _ => [("id", "integer"), ("v", "text")])) "s" "t" =
      (EngineCatalog.mk (fun _ _ => [("id", "integer")])
        (fun _ _ => [("id", "integer"), ("v", "text")])).primary_keys "s" "t") ∧
    ((EngineCatalog.mk (fun _ _ => [("id", "integer")])
        (fun _ _ => [("id", "integer"), ("v", "text")])).primary_keys "s" "t" = [] →
      get_change_key
        (EngineCatalog.mk (fun _ _ => [("id", "integer")])
          (fun _ _ => [("id", "integer"), ("v", "text")])) "s" "t" =
      (EngineCatalog.mk (fun _ _ => [("id", "integer")])
        (fun _ _ => [("id", "integer"), ("v", "text")])).column_names_types "s" "t") :=
  get_change_key_spec
    (EngineCatalog.mk (fun _ _ => [("id", "integer")])
      (fun _ _ => [("id", "integer"), ("v", "text")])) "s" "t"

/-- C9. Idempotent `_id` injection: for every non-empty table schema,
`MongoDataSource.get_table_schema` returns the schema unchanged when some
column is already named `_id`, otherwise appends exactly one `_id` column of
type `NAME` at the next ordinal; applying it twice equals applying it once. -/
theorem mongo_get_table_schema_spec (ts : List TableColumn) (h : ts ≠ []) :
    ((ts.any fun c => c.name = "_id") = true → mongo_get_table_schema ts = some ts) ∧
    ((ts.any fun c => c.name = "_id") = false →
      ∀ c, ts.getLast? = some c →
        mongo_get_table_schema ts =
          some (ts ++ [⟨c.ordinal + 1, "_id", "NAME", false⟩])) ∧
    (mongo_get_table_schema ts).bind mongo_get_table_schema = mongo_get_table_schema ts := by
  refine ⟨?_, ?_, ?_⟩
  · exact mongo_get_table_schema_of_id ts
  · intro hany c hc
    exact mongo_get_table_schema_of_no_id ts c hany hc
  · by_cases hany : (ts.any fun c => c.name = "_id") = true
    · rw [mongo_get_table_schema_of_id ts hany, Option.bind,
        mongo_get_table_schema_of_id ts hany]
    · obtain ⟨c, hc⟩ : ∃ c, ts.getLast? = some c := by
        cases hl : ts.getLast? with
        | none => exact absurd (List.getLast?_eq_none_iff.mp hl) h
        | some c => exact ⟨c, rfl⟩
      rw [Bool.not_eq_true] at hany
      rw [mongo_get_table_schema_of_no_id ts c hany hc, Option.bind,
        mongo_get_table_schema_of_id _ (by simp)]

/-- Witness for C9 at the one-column schema `[(1, "a", "text", true)]`. -/
theorem mongo_get_table_schema_spec_witness :
    (([TableColumn.mk 1 "a" "text" true].any fun c => c.name = "_id") = true →
      mongo_get_table_schema [TableColumn.mk 1 "a" "text" true] =
        some [TableColumn.mk 1 "a" "text" true]) ∧
    (([TableColumn.mk 1 "a" "text" true].any fun c => c.name = "_id") = false →
      ∀ c, [TableColumn.mk 1 "a" "text" true].getLast? = some c →
        mongo_get_table_schema [TableColumn.mk 1 "a" "text" true] =
          some ([TableColumn.mk 1 "a" "text" true] ++
            [⟨c.ordinal + 1, "_id", "NAME", false⟩])) ∧
    (mongo_get_table_schema [TableColumn.mk 1 "a" "text" true]).bind mongo_get_table_schema =
      mongo_get_table_schema [TableColumn.mk 1 "a" "text" true] :=
  mongo_get_table_schema_spec [TableColumn.mk 1 "a" "text" true] (by decide)

lemma dictInsert_mem_sub [DecidableEq κ] (m : List (κ × α)) (k : κ) (v : α) :
    ∀ p ∈ dictInsert m k v, p = (k, v) ∨ p ∈ m := by
  intro p hp
  unfold dictInsert at hp
  split at hp
  · obtain ⟨q, hq, hqe⟩ := List.mem_map.mp hp
    by_cases hk : q.1 = k
    · left
      rw [← hqe, if_pos hk]
    · right
      rw [← hqe, if_neg hk]
      exact hq
  · rcases List.mem_append.mp hp with h | h
    · right; exact h
    · left; simpa using h

lemma dictInsert_key_iff [DecidableEq κ] (m : List (κ × α)) (k : κ) (v : α) (k' : κ) :
    (∃ v', (k', v') ∈ dictInsert m k v) ↔ k' = k ∨ ∃ v', (k', v') ∈ m := by
  unfold dictInsert
  split
  case isTrue hany =>
    constructor
    · rintro ⟨v', hv'⟩
      obtain ⟨q, hq, hqe⟩ := List.mem_map.mp hv'
      by_cases hk : q.1 = k
      · left
        rw [if_pos hk] at hqe
        exact (congrArg Prod.fst hqe).symm
      · right
        rw [if_neg hk] at hqe
        exact ⟨v', hqe ▸ hq⟩
    · rintro (rfl | ⟨v', hv'⟩)
      · obtain ⟨q, hq, hqk⟩ := List.any_eq_true.mp hany
        exact ⟨v, List.mem_map.mpr ⟨q, hq, by rw [if_pos (decide_eq_true_eq.mp hqk)]⟩⟩
      · by_cases hk : k' = k
        · obtain ⟨q, hq, hqk⟩ := List.any_eq_true.mp hany
          exact ⟨v, List.mem_map.mpr ⟨q, hq, by rw [if_pos (decide_eq_true_eq.mp hqk), hk]⟩⟩
        · exact ⟨v', List.mem_map.mpr ⟨(k', v'), hv', by rw [if_neg (by simpa using hk)]⟩⟩
  case isFalse hany =>
    constructor
    · rintro ⟨v', hv'⟩
      rcases List.mem_append.mp hv' with h | h
      · right; exact ⟨v', h⟩
      · left
        exact congrArg Prod.fst (List.mem_singleton.mp h)
    · rintro (rfl | ⟨v', hv'⟩)
      · exact ⟨v, List.mem_append.mpr (Or.inr (List.mem_singleton.mpr rfl))⟩
      · exact ⟨v', List.mem_append.mpr (Or.inl hv')⟩

lemma changeset_fold_keys [DecidableEq V] (key : List String)
    (ups : (String → V) → Bool) :
    ∀ (rows : List (String → V)) (m : Changeset V) (k : List V),
      (∃ v, (k, v) ∈ rows.foldl
          (fun m row => dictInsert m (key.map row) (ups row, [], [])) m) ↔
      (∃ v, (k, v) ∈ m) ∨ ∃ row ∈ rows, key.map row = k := by
  intro rows
  induction rows with
  | nil => simp
  | cons r rest ih =>
      intro m k
      rw [List.foldl_cons, ih, dictInsert_key_iff]
      simp only [List.mem_cons, exists_eq_or_imp]
      constructor
      · rintro ((rfl | h) | h)
        · exact Or.inr (Or.inl rfl)
        · exact Or.inl h
        · exact Or.inr (Or.inr h)
      · rintro (h | (rfl | h))
        · exact Or.inl (Or.inr h)
        · exact Or.inl (Or.inl rfl)
        · exact Or.inr h

lemma changeset_fold_values [DecidableEq V] (key : List String)
    (ups : (String → V) → Bool) (allRows : List (String → V)) :
    ∀ (rows : List (String → V)) (m : Changeset V),
      (∀ r ∈ rows, r ∈ allRows) →
      (∀ k v, (k, v) ∈ m →
        v.2.1 = [] ∧ v.2.2 = [] ∧ ∃ row ∈ allRows, key.map row = k ∧ v.1 = ups row) →
      ∀ k v, (k, v) ∈ rows.foldl
          (fun m row => dictInsert m (key.map row) (ups row, [], [])) m →
        v.2.1 = [] ∧ v.2.2 = [] ∧ ∃ row ∈ allRows, key.map row = k ∧ v.1 = ups row := by
  intro rows
  induction rows with
  | nil => intro m _ hm k v hkv; exact hm k v hkv
  | cons r rest ih =>
      intro m hsub hm k v hkv
      rw [List.foldl_cons] at hkv
      refine ih _ (fun x hx => hsub x (List.mem_cons_of_mem r hx)) ?_ k v hkv
      intro k' v' hk'
      rcases dictInsert_mem_sub m (key.map r) (ups r, [], []) _ hk' with he | hin
      · have h1 : k' = key.map r := congrArg Prod.fst he
        have h2 : v' = (ups r, [], []) := congrArg Prod.snd he
        subst h1; subst h2
        exact ⟨rfl, rfl, r, hsub r (List.mem_cons_self r rest), rfl, rfl⟩
      · exact hm k' v' hin

/-- C6. Changeset capture without prior row values: the keys of the mapping
returned by `_make_changeset` are exactly the change-key tuples of the
staging-table rows; each value is a triple of the evaluated upsert condition,
an empty old-row dict and an empty new-row dict — no prior row value is ever
recorded; and with the default upsert condition `TRUE` every key is marked
upserted. -/
theorem make_changeset_spec [DecidableEq V] (rows : List (String → V))
    (schema_spec : List TableColumn) (upsert_condition : (String → V) → Bool) :
    (∀ k, (∃ v, (k, v) ∈ make_changeset rows schema_spec upsert_condition) ↔
        ∃ row ∈ rows, ((get_change_key_schema schema_spec).map fun p => p.1).map row = k) ∧
    (∀ k v, (k, v) ∈ make_changeset rows schema_spec upsert_condition →
        v.2.1 = [] ∧ v.2.2 = [] ∧
        ∃ row ∈ rows, ((get_change_key_schema schema_spec).map fun p => p.1).map row = k ∧
          v.1 = upsert_condition row) ∧
    (upsert_condition = (fun _ => true) →
        ∀ k v, (k, v) ∈ make_changeset rows schema_spec upsert_condition → v.1 = true) := by
  refine ⟨?_, ?_, ?_⟩
  · intro k
    unfold make_changeset
    rw [changeset_fold_keys]
    simp
  · intro k v hkv
    unfold make_changeset at hkv
    exact changeset_fold_values _ _ rows rows [] (fun r hr => hr) (by simp) k v hkv
  · intro hups k v hkv
    unfold make_changeset at hkv
    have h := changeset_fold_values
      ((get_change_key_schema schema_spec).map fun p => p.1) upsert_condition rows rows []
      (fun r hr => hr) (by simp) k v hkv
    obtain ⟨-, -, row, -, -, hv⟩ := h
    rw [hv, hups]

/-- Witness for C6: the changeset of a one-row staging table with integer
primary key `id = 1` holds the key `[1]`. -/
theorem make_changeset_spec_witness :
    ∃ v, (([1] : List Nat), v) ∈ make_changeset [sampleRow] sampleSpec (fun _ => true) :=
  ((make_changeset_spec [sampleRow] sampleSpec (fun _ => true)).1 [1]).mpr
    ⟨sampleRow, by simp, by decide⟩

lemma schema_import_results_eq (introspection : String → Except String TableDefinition)
    (objects : List String) :
    schema_import_results introspection objects =
      objects.filterMap fun x => introspect_s3_result introspection x := by
  unfold schema_import_results
  rw [List.filterMap_map]
  rfl

lemma schema_import_filter_err
    (introspection : String → Except String TableDefinition)
    (o : String) (e : String) (herr : introspection o = Except.error e) :
    ∀ objects : List String,
      schema_import_results introspection objects =
        schema_import_results introspection (objects.filter fun x => x ≠ o) := by
  intro objects
  induction objects with
  | nil => rfl
  | cons a rest ih =>
      simp only [schema_import_results_eq] at ih ⊢
      by_cases ha : a = o
      · subst ha
        have hnone : introspect_s3_result introspection a = none := by
          simp [introspect_s3_result, report_errors, Except.toOption, herr]
        rw [List.filter_cons, if_neg (by simp), List.filterMap_cons, hnone]
        exact ih
      · rw [List.filter_cons, if_pos (by simp [ha]), List.filterMap_cons,
          List.filterMap_cons]
        cases introspect_s3_result introspection a with
        | none => exact ih
        | some d => rw [ih]

/-- C10. Per-table error isolation in CSV schema import: an exception raised
while introspecting one object is caught by `report_errors` and never
propagated; that table alone is omitted from the returned table definitions
and every surviving definition comes from an object whose introspection
succeeded. -/
theorem csv_import_error_isolation
    (introspection : String → Except String TableDefinition)
    (objects : List String) (o : String) (e : String)
    (ho : o ∈ objects) (herr : introspection o = Except.error e) :
    schema_import_results introspection objects =
      schema_import_results introspection (objects.filter fun x => x ≠ o) ∧
    ∀ d ∈ schema_import_results introspection objects,
      ∃ x ∈ objects, introspection x = Except.ok d := by
  constructor
  · exact schema_import_filter_err introspection o e herr objects
  · intro d hd
    rw [schema_import_results_eq] at hd
    obtain ⟨x, hx, hxd⟩ := List.mem_filterMap.mp hd
    refine ⟨x, hx, ?_⟩
    unfold introspect_s3_result report_errors at hxd
    cases hix : introspection x with
    | error err =>
        rw [hix] at hxd
        simp [Except.toOption] at hxd
    | ok dd =>
        rw [hix] at hxd
        simp only [Except.toOption, Option.some.injEq] at hxd
        rw [hxd]

lemma ppScan_missing (f : String → Option String) :
    ∀ (cs : List Char) (mode : ScanMode),
      (ppScan f cs mode).2 = (placeholderRefs cs mode).filter fun n => (f n).isNone := by
  intro cs
  induction cs with
  | nil => intro mode; cases mode <;> simp [ppScan, placeholderRefs]
  | cons c rest ih =>
      intro mode
      cases mode with
      | normal =>
          by_cases h1 : c = '\\' <;> by_cases h2 : c = '$' <;>
            simp [ppScan, placeholderRefs, h1, h2, ih]
      | escape =>
          by_cases h1 : c = '$' <;> by_cases h2 : c = '\\' <;>
            simp [ppScan, placeholderRefs, h1, h2, ih]
      | dollar =>
          by_cases h1 : c = '{' <;> by_cases h2 : c = '\\' <;> by_cases h3 : c = '$' <;>
            simp [ppScan, placeholderRefs, h1, h2, h3, ih]
      | name acc =>
          by_cases h1 : c = '}'
          · cases hv : f (String.mk acc) with
            | some v => simp [ppScan, placeholderRefs, h1, hv, ih]
            | none => simp [ppScan, placeholderRefs, h1, hv, ih]
          · simp [ppScan, placeholderRefs, h1, ih]

lemma ppScan_name_run (f : String → Option String) :
    ∀ (nd : List Char), '}' ∉ nd → ∀ (acc rest : List Char),
      ppScan f (nd ++ '}' :: rest) (ScanMode.name acc) =
        match f (String.mk (acc ++ nd)) with
        | some v =>
            (v.data ++ (ppScan f rest ScanMode.normal).1,
             (ppScan f rest ScanMode.normal).2)
        | none =>
            ('$' :: '{' :: ((acc ++ nd) ++ '}' :: (ppScan f rest ScanMode.normal).1),
             String.mk (acc ++ nd) :: (ppScan f rest ScanMode.normal).2) := by
  intro nd
  induction nd with
  | nil =>
      intro _ acc rest
      cases hv : f (String.mk (acc ++ [])) with
      | some v => simp_all [ppScan]
      | none => simp_all [ppScan]
  | cons d nd ih =>
      intro hnotin acc rest
      have hd : d ≠ '}' := fun h => hnotin (h ▸ List.mem_cons_self d nd)
      have hnd : '}' ∉ nd := fun h => hnotin (List.mem_cons_of_mem d h)
      have step : ppScan f ((d :: nd) ++ '}' :: rest) (ScanMode.name acc) =
          ppScan f (nd ++ '}' :: rest) (ScanMode.name (acc ++ [d])) := by
        simp [ppScan, hd]
      rw [step, ih hnd (acc ++ [d]) rest]
      simp [List.append_assoc]

/-- C4. Build-script preprocessing: the pass substitutes each unescaped
placeholder with its bound value, leaves backslash-escaped placeholders
unsubstituted with the escaping backslash removed, and fails — listing every
referenced-but-unbound parameter name, escaped placeholders never counted —
if and only if at least one unescaped placeholder has no binding. -/
theorem preprocess_spec (params : List (String × String)) (text : String) :
    ((∃ es, preprocess text params = Except.error es) ↔
      ((placeholderRefs text.data ScanMode.normal).filter
          fun n => (lookupParam params n).isNone) ≠ []) ∧
    (∀ es, preprocess text params = Except.error es →
      es = (placeholderRefs text.data ScanMode.normal).filter
          fun n => (lookupParam params n).isNone) ∧
    (∀ out, preprocess text params = Except.ok out →
      out = String.mk (ppScan (lookupParam params) text.data ScanMode.normal).1) ∧
    (∀ rest : List Char,
      ppScan (lookupParam params) ('\\' :: '$' :: rest) ScanMode.normal =
        ('$' :: (ppScan (lookupParam params) rest ScanMode.normal).1,
         (ppScan (lookupParam params) rest ScanMode.normal).2)) ∧
    (∀ (n v : String) (rest : List Char), '}' ∉ n.data →
      lookupParam params n = some v →
      ppScan (lookupParam params) ('$' :: '{' :: (n.data ++ '}' :: rest)) ScanMode.normal =
        (v.data ++ (ppScan (lookupParam params) rest ScanMode.normal).1,
         (ppScan (lookupParam params) rest ScanMode.normal).2)) := by
  have hm := ppScan_missing (lookupParam params) text.data ScanMode.normal
  refine ⟨?_, ?_, ?_, ?_, ?_⟩
  · constructor
    · rintro ⟨es, hes⟩
      unfold preprocess at hes
      split at hes
      · cases hes
      · next h => rw [← hm]; exact h
    · intro hne
      unfold preprocess
      split
      · next h => rw [hm] at h; exact absurd h hne
      · exact ⟨_, rfl⟩
  · intro es hes
    unfold preprocess at hes
    split at hes
    · cases hes
    · injection hes with h
      rw [← h, hm]
  · intro out hes
    unfold preprocess at hes
    split at hes
    · injection hes with h
      exact h.symm
    · cases hes
  · intro rest
    simp [ppScan]
  · intro n v rest hn hv
    have step : ppScan (lookupParam params)
        ('$' :: '{' :: (n.data ++ '}' :: rest)) ScanMode.normal =
        ppScan (lookupParam params) (n.data ++ '}' :: rest) (ScanMode.name []) := by
      simp [ppScan]
    rw [step, ppScan_name_run (lookupParam params) n.data hn [] rest]
    simp [hv]

/-- Witness for C4: with TAG bound, the placeholder is substituted by its
value. -/
theorem preprocess_spec_witness :
    ppScan (lookupParam [("TAG", "tag-v1")])
        ('$' :: '{' :: ("TAG".data ++ '}' :: [])) ScanMode.normal =
      ("tag-v1".data ++
        (ppScan (lookupParam [("TAG", "tag-v1")]) [] ScanMode.normal).1,
       (ppScan (lookupParam [("TAG", "tag-v1")]) [] ScanMode.normal).2) :=
  (preprocess_spec [("TAG", "tag-v1")] "").2.2.2.2 "TAG" "tag-v1" []
    (by decide) (by decide)

/-- Witness for C10: of two objects, "bad.csv" fails to introspect; its table
is omitted and "good.csv"'s definition is still returned. -/
theorem csv_import_error_isolation_witness :
    (schema_import_results sampleIntrospection ["good.csv", "bad.csv"] =
      schema_import_results sampleIntrospection
        (["good.csv", "bad.csv"].filter fun x => x ≠ "bad.csv")) ∧
    ∀ d ∈ schema_import_results sampleIntrospection ["good.csv", "bad.csv"],
      ∃ x ∈ ["good.csv", "bad.csv"], sampleIntrospection x = Except.ok d :=
  csv_import_error_isolation sampleIntrospection ["good.csv", "bad.csv"]
    "bad.csv" "boom" (by simp) rfl

end Splitgraph

namespace Splitgraph.Build

lemma executeStep_head (st : BuildState) (c : Command) :
    (executeStep st c).head = stepHash st.head c := by
  unfold executeStep
  split <;> rfl

lemma executeStep_images_sub (st : BuildState) (c : Command) :
    ∀ im ∈ st.images, im ∈ (executeStep st c).images := by
  intro im him
  unfold executeStep
  split
  · exact him
  · exact List.mem_append.mpr (Or.inl him)

lemma execute_commands_images_sub (commands : List Command) :
    ∀ st : BuildState, ∀ im ∈ st.images, im ∈ (execute_commands commands st).images := by
  induction commands with
  | nil => intro st im him; exact him
  | cons c rest ih =>
      intro st im him
      exact ih (executeStep st c) im (executeStep_images_sub st c im him)

lemma executeStep_covers (st : BuildState) (c : Command) :
    ∃ im ∈ (executeStep st c).images, im.image_hash = stepHash st.head c := by
  unfold executeStep
  split
  · next hany =>
      obtain ⟨im, him, hh⟩ := List.any_eq_true.mp hany
      exact ⟨im, him, by simpa using hh⟩
  · exact ⟨⟨stepHash st.head c, st.head, c⟩,
      List.mem_append.mpr (Or.inr (List.mem_singleton.mpr rfl)), rfl⟩

lemma execute_commands_covers (commands : List Command) :
    ∀ st : BuildState, ∀ hh ∈ chainHashes commands st.head,
      ∃ im ∈ (execute_commands commands st).images, im.image_hash = hh := by
  induction commands with
  | nil => intro st hh h; cases h
  | cons c rest ih =>
      intro st hh h
      rcases List.mem_cons.mp h with rfl | h
      · obtain ⟨im, him, hh'⟩ := executeStep_covers st c
        exact ⟨im, execute_commands_images_sub rest (executeStep st c) im him, hh'⟩
      · have h2 : hh ∈ chainHashes rest (executeStep st c).head := by
          rw [executeStep_head]; exact h
        exact ih (executeStep st c) hh h2

lemma execute_commands_reuse (commands : List Command) :
    ∀ st : BuildState,
      (∀ hh ∈ chainHashes commands st.head, ∃ im ∈ st.images, im.image_hash = hh) →
      execute_commands commands st =
        { images := st.images, head := headAfter commands st.head } := by
  induction commands with
  | nil => intro st _; rfl
  | cons c rest ih =>
      intro st hcov
      obtain ⟨im, him, hh⟩ := hcov (stepHash st.head c) (List.mem_cons_self _ _)
      have hstep : executeStep st c = { st with head := stepHash st.head c } := by
        unfold executeStep
        rw [if_pos (List.any_eq_true.mpr ⟨im, him, by simpa using hh⟩)]
      show execute_commands rest (executeStep st c) = _
      rw [hstep, ih { st with head := stepHash st.head c }
        (by intro hh2 h2; exact hcov hh2 (List.mem_cons_of_mem _ h2))]
      rfl

/-- C1. Idempotent re-run: executing the same build script a second time
against the identical starting state — the images produced by the first run,
with the same source images and the same output HEAD the first run started
from — creates zero new images: the set of images after the second run equals
the set after the first run. -/
theorem splitfile_idempotent_rerun (commands : List Command) (st : BuildState) :
    (execute_commands commands
      { images := (execute_commands commands st).images, head := st.head }).images =
    (execute_commands commands st).images := by
  rw [execute_commands_reuse commands
    { images := (execute_commands commands st).images, head := st.head }
    (fun hh h => execute_commands_covers commands st hh h)]

end Splitgraph.Build

namespace Splitgraph.BuildImport

/-- C3. Import sharing: importing a table without a transform query creates
zero new objects and the new table entry references exactly the source
table's existing object ids; importing with a custom transform query always
creates exactly one new object, which is not among the source repository's
existing objects. -/
theorem table_import_sharing (entry : TableEntry) (q : String) (srcObjects : List ObjId)
    (hsub : ∀ o ∈ entry.objects, o ∈ srcObjects)
    (hsrc : ∀ o ∈ srcObjects, ∃ i, o = ObjId.stored i) :
    ((applyImport entry none).1 = entry ∧ (applyImport entry none).2 = []) ∧
    ((applyImport entry (some q)).2.length = 1 ∧
      (applyImport entry (some q)).1.objects = (applyImport entry (some q)).2 ∧
      ∀ o ∈ (applyImport entry (some q)).2, o ∉ srcObjects) := by
  refine ⟨⟨rfl, rfl⟩, rfl, rfl, ?_⟩
  intro o ho hmem
  have heq : o = ObjId.transformed q := by simpa [applyImport] using ho
  obtain ⟨i, hi⟩ := hsrc o hmem
  rw [heq] at hi
  cases hi

/-- Witness for C3: a one-object source table inside a two-object source
repository; the verbatim import shares the object, the transformed import
creates one object foreign to the source repository. -/
theorem table_import_sharing_witness :
    ((applyImport ⟨[ObjId.stored "oa"]⟩ none).1 = ⟨[ObjId.stored "oa"]⟩ ∧
      (applyImport ⟨[ObjId.stored "oa"]⟩ none).2 = []) ∧
    ((applyImport ⟨[ObjId.stored "oa"]⟩ (some "SELECT 1")).2.length = 1 ∧
      (applyImport ⟨[ObjId.stored "oa"]⟩ (some "SELECT 1")).1.objects =
        (applyImport ⟨[ObjId.stored "oa"]⟩ (some "SELECT 1")).2 ∧
      ∀ o ∈ (applyImport ⟨[ObjId.stored "oa"]⟩ (some "SELECT 1")).2,
        o ∉ [ObjId.stored "oa", ObjId.stored "ob"]) :=
  table_import_sharing ⟨[ObjId.stored "oa"]⟩ "SELECT 1"
    [ObjId.stored "oa", ObjId.stored "ob"]
    (by intro o ho; exact List.mem_cons.mpr (Or.inl (List.mem_singleton.mp ho)))
    (by
      intro o ho
      rcases List.mem_cons.mp ho with h | h
      · exact ⟨"oa", h⟩
      · exact ⟨"ob", List.mem_singleton.mp h⟩)

end Splitgraph.BuildImport

namespace Splitgraph.Commit

/-- C2. Scenario A: committing the tracked table holding
`[(1, "pineapple")]` and then `[(1, "pineapple"), (2, "banana")]` yields a
repository of exactly 3 images — the synthetic empty root, commit 1 and
commit 2 — and checking these out in order materializes the table as `[]`,
`[(1, "pineapple")]` and `[(1, "pineapple"), (2, "banana")]`. -/
theorem scenario_a :
    scenarioRepo.images.length = 3 ∧
    get_log scenarioRepo = [scenarioHash2, scenarioHash1, CommitHash.root] ∧
    checkoutTable scenarioRepo CommitHash.root = [] ∧
    checkoutTable scenarioRepo scenarioHash1 = [(1, "pineapple")] ∧
    checkoutTable scenarioRepo scenarioHash2 = [(1, "pineapple"), (2, "banana")] := by
  decide

end Splitgraph.Commit
